import Mathlib

/-!
# The user registry of `main.go`

A shallow embedding of `src/main.go`: the `Server` struct (a `map[string]string`
and an unbuffered `chan string`), its constructor `NewServer`, the event loop
`Server.loop`, the direct write path `Server.addUser`, the lifecycle call
`Server.Start`, and the two direction-typed helpers `sendMessage` and
`readMessage`.

* Go's `map[string]string` is a finite map with byte-exact key equality and no
  observable insertion order: `Finmap`.
* A channel is a reference into a heap of channel objects; a channel object has
  a capacity and a queue of buffered elements.
* Sequential statements are functions on the process state `World`
  (server, channel heap, standard output).
* Goroutines are control states; the scheduler is a step function `fire` that
  is given the action to run. Every statement is one atomic step, so the data
  race between `addUser` and the loop shows up as an interleaving of writes.
* `main` is empty, so the clients of the server are goroutines that make the
  calls the server offers: a send on `userch`, `addUser`, `Start`.
* Nothing in the program closes a channel or leaves `users` nil, so closed
  channels and the nil map are not part of the state.
-/

namespace GoChannel

/-! ## Data model -/

/-- The type `map[string]string` of the field `users`. -/
abbrev Users := Finmap (fun _ : String => String)

/-- A channel object of element type `string`: its capacity (`cap(ch)`) and the
elements waiting in its buffer (`len(ch)` of them). -/
structure Chan where
  cap : Nat
  buf : List String
deriving DecidableEq, Repr

/-- The builtin `make(chan string, size)`; `make(chan string)` is `makeChan 0`. -/
def makeChan (size : Nat) : Chan := { cap := size, buf := [] }

/-- The struct `Server`: `users map[string]string` and `userch chan string`
(a reference to a channel object: its index in the channel heap). `NewServer`
is the only constructor, so `users` is always a map built by `make`. -/
structure Server where
  users : Users
  userch : Nat

/-- Process state seen by sequential code: the server, the heap of channel
objects and the text written to standard output so far. -/
structure World where
  server : Server
  chans : List Chan
  stdout : String

/-! ## Formatting -/

/-- The part of `fmt.Sprintf` the program uses: the verb `%s` is replaced by the
next string operand, every other character is copied. -/
def sprintf : List Char → List String → List Char
  | [], _ => []
  | [c], _ => [c]
  | c :: d :: rest, args =>
    if c = '%' ∧ d = 's' then
      match args with
      | a :: args' => a.data ++ sprintf rest args'
      | [] => "%!s(MISSING)".data ++ sprintf rest []
    else c :: sprintf (d :: rest) args

/-- The call `fmt.Printf(format, args...)`: appends the formatted text to standard output. -/
def Printf (w : World) (format : String) (args : List String) : World :=
  { w with stdout := w.stdout ++ String.mk (sprintf format.data args) }

/-- The call `fmt.Println(msg)` with one string operand: the operand and a newline. -/
def Println (w : World) (msg : String) : World :=
  { w with stdout := w.stdout ++ msg ++ "\n" }

/-! ## Sequential code of `main.go` -/

/-- The function `NewServer`: `&Server{users: make(map[string]string), userch: make(chan string)}`.
The new channel object is allocated at the end of the heap. -/
def NewServer (chans : List Chan) : Server × List Chan :=
  ({ users := ∅, userch := chans.length }, chans ++ [makeChan 0])

/-- The statement `s.users[user] = user` of `Server.loop`. -/
def loopAssign (w : World) (user : String) : World :=
  { w with server := { w.server with users := w.server.users.insert user user } }

/-- The statement `fmt.Printf("adding new user %s\n", user)` of `Server.loop`. -/
def loopPrintf (w : World) (user : String) : World :=
  Printf w "adding new user %s\n" [user]

/-- One iteration of the body of `Server.loop` once `user := <-s.userch` has
received `user`: the assignment, then the notice. -/
def loopIter (w : World) (user : String) : World :=
  loopPrintf (loopAssign w user) user

/-- The method `Server.addUser`: `s.users[user] = user + "value"`. -/
def addUser (w : World) (user : String) : World :=
  { w with server := { w.server with users := w.server.users.insert user (user ++ "value") } }

/-! ## Sequences of admissions -/

/-- An admission: `intake u` is one loop iteration that received `u` on the
intake channel, `direct u` is one call `addUser(u)`. -/
inductive Admission where
  | intake (u : String)
  | direct (u : String)
deriving DecidableEq, Repr

/-- The identifier an admission is about. -/
def Admission.user : Admission → String
  | .intake u => u
  | .direct u => u

/-- The effect of one admission on the process state. -/
def perform (w : World) : Admission → World
  | .intake u => loopIter w u
  | .direct u => addUser w u

/-- The admissions of a list applied one after the other, first element first. -/
def performAll (w : World) (ops : List Admission) : World :=
  ops.foldl perform w

/-- The process state right after `NewServer()` was called on the heap `chans`,
nothing printed yet. -/
def fresh (chans : List Chan) : World :=
  { server := (NewServer chans).1, chans := (NewServer chans).2, stdout := "" }

/-- The value an admission stores under its identifier: the bare identifier
for the loop, the identifier followed by `value` for `addUser`. -/
def Admission.stored : Admission → String
  | .intake u => u
  | .direct u => u ++ "value"

/-- The value the last admission of `k` in `ops` stores, if `k` is admitted at all. -/
def lastWrite (k : String) : List Admission → Option String
  | [] => none
  | op :: rest =>
    match lastWrite k rest with
    | some v => some v
    | none => if op.user = k then some op.stored else none

/-- The notices `adding new user u` with a newline, for the identifiers of `us` in order. -/
def notices : List String → String
  | [] => ""
  | u :: us => "adding new user " ++ u ++ "\n" ++ notices us

/-! ## Goroutines and the scheduler -/

/-- A call a client goroutine makes on the server (`main` itself makes none). -/
inductive Call where
  /-- The statement `s.userch <- u`. -/
  | send (u : String)
  /-- The call `s.addUser(u)`. -/
  | addUser (u : String)
  /-- The call `s.Start()`. -/
  | Start
deriving DecidableEq, Repr

/-- Control state of a goroutine: the statement of `main.go` it executes next. -/
inductive Goroutine where
  /-- A client that still has the listed calls to make, in order. -/
  | caller (todo : List Call)
  /-- In `Server.loop`, at `user := <-s.userch`. -/
  | loopRecv
  /-- In `Server.loop`, at `s.users[user] = user`. -/
  | loopAssign (user : String)
  /-- In `Server.loop`, at `fmt.Printf("adding new user %s\n", user)`. -/
  | loopPrintf (user : String)
  /-- In `sendMessage(msgch)`, at `msgch <- "hello"`. -/
  | sendMessage (msgch : Nat)
  /-- In `readMessage(msgch)`, at `msg := <-msgch`. -/
  | readMessage (msgch : Nat)
  /-- In `readMessage`, at `fmt.Println(msg)`. -/
  | readPrintln (msg : String)
  /-- The function has returned. -/
  | returned
deriving DecidableEq, Repr

/-- The method `Server.Start`: the statement `go s.loop()` adds a goroutine at
the top of `Server.loop`; the caller goes on at once. -/
def Start (gs : List Goroutine) : List Goroutine := gs ++ [.loopRecv]

/-- The whole program state: the process state and the goroutines. -/
structure System where
  world : World
  gs : List Goroutine

/-- The send a goroutine is waiting to perform: channel, value, and the control
state after the send. -/
def sendOf (s : Server) : Goroutine → Option (Nat × String × Goroutine)
  | .caller (.send u :: rest) => some (s.userch, u, .caller rest)
  | .sendMessage msgch => some (msgch, "hello", .returned)
  | _ => none

/-- The receive a goroutine is waiting to perform: channel, and the control
state once a value has been received. -/
def recvOf (s : Server) : Goroutine → Option (Nat × (String → Goroutine))
  | .loopRecv => some (s.userch, .loopAssign)
  | .readMessage msgch => some (msgch, .readPrintln)
  | _ => none

/-- What the scheduler can do next. -/
inductive Action where
  /-- Goroutine `i`, waiting to send, hands its value to goroutine `j`, waiting
  to receive on the same channel (rendezvous). -/
  | handoff (i j : Nat)
  /-- Goroutine `i` sends into free buffer space. -/
  | enqueue (i : Nat)
  /-- Goroutine `j` receives the oldest buffered element. -/
  | dequeue (j : Nat)
  /-- Goroutine `i` executes `s.Start()`: `go s.loop()`. -/
  | callStart (i : Nat)
  /-- Goroutine `i` executes its next statement that is not a channel operation. -/
  | run (i : Nat)
deriving DecidableEq, Repr

/-- One scheduling step; `none` when the action is not enabled. A send on a
channel proceeds only by rendezvous with a waiting receiver or into free buffer
space; a receive only by rendezvous or from a non-empty buffer. A channel
reference that names no channel object behaves like the nil channel: nothing
proceeds on it. -/
def fire (sys : System) : Action → Option System
  | .handoff i j =>
    match sys.gs[i]? >>= sendOf sys.world.server, sys.gs[j]? >>= recvOf sys.world.server with
    | some (c, v, k), some (c', r) =>
      match sys.world.chans[c]? with
      | some ch =>
        if c = c' ∧ ch.buf = [] then some { sys with gs := (sys.gs.set i k).set j (r v) }
        else none
      | none => none
    | _, _ => none
  | .enqueue i =>
    match sys.gs[i]? >>= sendOf sys.world.server with
    | some (c, v, k) =>
      match sys.world.chans[c]? with
      | some ch =>
        if ch.buf.length < ch.cap then
          some { world := { sys.world with chans := sys.world.chans.set c { ch with buf := ch.buf ++ [v] } },
                 gs := sys.gs.set i k }
        else none
      | none => none
    | none => none
  | .dequeue j =>
    match sys.gs[j]? >>= recvOf sys.world.server with
    | some (c, r) =>
      match sys.world.chans[c]? with
      | some ch =>
        match ch.buf with
        | v :: rest =>
          some { world := { sys.world with chans := sys.world.chans.set c { ch with buf := rest } },
                 gs := sys.gs.set j (r v) }
        | [] => none
      | none => none
    | none => none
  | .callStart i =>
    match sys.gs[i]? with
    | some (.caller (.Start :: rest)) => some { sys with gs := Start (sys.gs.set i (.caller rest)) }
    | _ => none
  | .run i =>
    match sys.gs[i]? with
    | some (.caller (.addUser u :: rest)) =>
      some { world := addUser sys.world u, gs := sys.gs.set i (.caller rest) }
    | some (.loopAssign u) => some { world := loopAssign sys.world u, gs := sys.gs.set i (.loopPrintf u) }
    | some (.loopPrintf u) => some { world := loopPrintf sys.world u, gs := sys.gs.set i .loopRecv }
    | some (.readPrintln msg) => some { world := Println sys.world msg, gs := sys.gs.set i .returned }
    | _ => none

/-- The program can move from `s` to `t` in one step. -/
def Step (s t : System) : Prop := ∃ a, fire s a = some t

/-- The program can move from `s` to `t` in one step that is not a call of `Start`. -/
def StepNoStart (s t : System) : Prop := ∃ a, (∀ i, a ≠ Action.callStart i) ∧ fire s a = some t

/-- Exactly `n` steps of the relation `r` lead from `s` to `t`. -/
def StepsN (r : System → System → Prop) : Nat → System → System → Prop
  | 0, s, t => s = t
  | n + 1, s, t => ∃ m, r s m ∧ StepsN r n m t

/-- No step is possible. -/
def Terminal (s : System) : Prop := ∀ t, ¬ Step s t

/-- Two helpers on channel `c`: `go sendMessage(c)` and `go readMessage(c)`. -/
def helperPair (w : World) (c : Nat) : System :=
  { world := w, gs := [.sendMessage c, .readMessage c] }

/-- A server just built by `NewServer` on heap `chans`, with output `out` so
far and goroutines `gs`. -/
def boot (chans : List Chan) (out : String) (gs : List Goroutine) : System :=
  { world := { fresh chans with stdout := out }, gs := gs }

/-- A goroutine that neither runs `Server.loop` nor waits to receive on channel `c`. -/
def quietOn (c : Nat) : Goroutine → Bool
  | .loopRecv => false
  | .loopAssign _ => false
  | .loopPrintf _ => false
  | .readMessage msgch => msgch != c
  | _ => true

/-- A goroutine with no call of `addUser` left to make. -/
def noDirect : Goroutine → Bool
  | .caller todo => todo.all (fun call => match call with | .addUser _ => false | _ => true)
  | _ => true

/-- What holds of a program whose server, with intake channel `c`, was built
and never started: the intake channel is an empty channel object of capacity
zero, no goroutine runs the loop or receives on `c`, and every stored value is
its key followed by `value`. -/
structure Unstarted (c : Nat) (s : System) : Prop where
  userch : s.world.server.userch = c
  chan : ∃ ch, s.world.chans[c]? = some ch ∧ ch.cap = 0 ∧ ch.buf = []
  quiet : ∀ g ∈ s.gs, quietOn c g = true
  values : ∀ k v, s.world.server.users.lookup k = some v → v = k ++ "value"

/-! ## Basic facts -/

theorem sprintf_adding (u : String) :
    String.mk (sprintf "adding new user %s\n".data [u]) = "adding new user " ++ u ++ "\n" := by
  apply String.ext
  simp [sprintf]

theorem loopPrintf_stdout (w : World) (u : String) :
    (loopPrintf w u).stdout = w.stdout ++ ("adding new user " ++ u ++ "\n") := by
  show w.stdout ++ String.mk (sprintf "adding new user %s\n".data [u]) = _
  rw [sprintf_adding]

theorem loopIter_users (w : World) (u : String) :
    (loopIter w u).server.users = w.server.users.insert u u := rfl

theorem loopIter_stdout (w : World) (u : String) :
    (loopIter w u).stdout = w.stdout ++ ("adding new user " ++ u ++ "\n") := by
  rw [loopIter, loopPrintf_stdout]; rfl

theorem addUser_users (w : World) (u : String) :
    (addUser w u).server.users = w.server.users.insert u (u ++ "value") := rfl

/-! ## Single admissions -/

/-- C1. One iteration of `Server.loop` that received `u`: the mapping becomes the
old one with `u` stored under key `u`, so key `u` is present with value exactly
`u`, and standard output grows by exactly `adding new user u` and a newline. -/
theorem loop_iteration_admits (w : World) (u : String) :
    (loopIter w u).server.users = w.server.users.insert u u ∧
    u ∈ (loopIter w u).server.users ∧
    (loopIter w u).server.users.lookup u = some u ∧
    (loopIter w u).stdout = w.stdout ++ ("adding new user " ++ u ++ "\n") := by
  refine ⟨rfl, ?_, ?_, loopIter_stdout w u⟩
  · rw [loopIter_users]; exact Finmap.mem_insert.mpr (Or.inl rfl)
  · rw [loopIter_users]; exact Finmap.lookup_insert _

/-- C2. After `addUser(u)` the mapping has key `u` with value `u ++ "value"`; the
call is a total function of the state (it cannot fail) and leaves standard
output as it was. -/
theorem addUser_admits (w : World) (u : String) :
    u ∈ (addUser w u).server.users ∧
    (addUser w u).server.users.lookup u = some (u ++ "value") ∧
    (addUser w u).stdout = w.stdout := by
  refine ⟨?_, ?_, rfl⟩
  · rw [addUser_users]; exact Finmap.mem_insert.mpr (Or.inl rfl)
  · rw [addUser_users]; exact Finmap.lookup_insert _

/-- C3. On every heap `NewServer` returns a server whose mapping is empty (no
identifier is a key, every lookup misses) and whose intake channel is a newly
allocated channel object of capacity zero with no pending element; the channel
objects that existed before are untouched. -/
theorem NewServer_fresh (chans : List Chan) :
    (NewServer chans).1.users = ∅ ∧
    (∀ k : String, k ∉ (NewServer chans).1.users) ∧
    (∀ k : String, (NewServer chans).1.users.lookup k = none) ∧
    (∃ ch, (NewServer chans).2[(NewServer chans).1.userch]? = some ch ∧ ch.cap = 0 ∧ ch.buf = []) ∧
    chans[(NewServer chans).1.userch]? = none ∧
    (∀ c, c < chans.length → (NewServer chans).2[c]? = chans[c]?) := by
  refine ⟨rfl, fun k => Finmap.not_mem_empty, fun k => Finmap.lookup_empty k, ?_, ?_, ?_⟩
  · exact ⟨makeChan 0, by simp [NewServer], rfl, rfl⟩
  · simp [NewServer]
  · intro c hc
    simp [NewServer, List.getElem?_append_left hc]

/-- C10. Frame of an admission of `u`: for every key `k` other than `u`, both
`addUser(u)` and a loop iteration that received `u` leave the entry of `k` as it
was (same value, or still absent); neither changes which channel is the
server's intake channel, nor any channel object. -/
theorem admission_frame (w : World) (u k : String) (h : k ≠ u) :
    (addUser w u).server.users.lookup k = w.server.users.lookup k ∧
    (loopIter w u).server.users.lookup k = w.server.users.lookup k ∧
    (k ∈ (addUser w u).server.users ↔ k ∈ w.server.users) ∧
    (k ∈ (loopIter w u).server.users ↔ k ∈ w.server.users) ∧
    (addUser w u).server.userch = w.server.userch ∧
    (loopIter w u).server.userch = w.server.userch ∧
    (addUser w u).chans = w.chans ∧
    (loopIter w u).chans = w.chans := by
  refine ⟨?_, ?_, ?_, ?_, rfl, rfl, rfl, rfl⟩
  · rw [addUser_users]; exact Finmap.lookup_insert_of_ne _ h
  · rw [loopIter_users]; exact Finmap.lookup_insert_of_ne _ h
  · rw [addUser_users, Finmap.mem_insert]; simp [h]
  · rw [loopIter_users, Finmap.mem_insert]; simp [h]

theorem admission_frame_witness :
    "bob" ≠ "alice" ∧
    (addUser (loopIter (fresh []) "bob") "alice").server.users.lookup "bob"
      = (loopIter (fresh []) "bob").server.users.lookup "bob" :=
  ⟨by decide, (admission_frame (loopIter (fresh []) "bob") "alice" "bob" (by decide)).1⟩

/-! ## Sequences of admissions -/

theorem perform_users (w : World) (op : Admission) :
    (perform w op).server.users = w.server.users.insert op.user op.stored := by
  cases op <;> rfl

theorem lookup_perform (w : World) (op : Admission) (k : String) :
    (perform w op).server.users.lookup k
      = if op.user = k then some op.stored else w.server.users.lookup k := by
  rw [perform_users]
  by_cases h : op.user = k
  · subst h; simp [Finmap.lookup_insert]
  · rw [if_neg h]; exact Finmap.lookup_insert_of_ne _ (Ne.symm h)

theorem performAll_cons (w : World) (op : Admission) (ops : List Admission) :
    performAll w (op :: ops) = performAll (perform w op) ops := rfl

theorem performAll_append (w : World) (ops ops' : List Admission) :
    performAll w (ops ++ ops') = performAll (performAll w ops) ops' := by
  simp [performAll, List.foldl_append]

theorem lookup_performAll (k : String) (ops : List Admission) (w : World) :
    (performAll w ops).server.users.lookup k
      = match lastWrite k ops with
        | some v => some v
        | none => w.server.users.lookup k := by
  induction ops generalizing w with
  | nil => rfl
  | cons op rest ih =>
    rw [performAll_cons, ih, lastWrite]
    cases hr : lastWrite k rest with
    | some v => rfl
    | none =>
      simp only [lookup_perform]
      by_cases h : op.user = k <;> simp [h]

theorem lastWrite_eq_none {k : String} {ops : List Admission} :
    lastWrite k ops = none ↔ ∀ op ∈ ops, op.user ≠ k := by
  induction ops with
  | nil => simp [lastWrite]
  | cons op rest ih =>
    rw [lastWrite]
    cases hr : lastWrite k rest with
    | some v =>
      have : ¬ ∀ op ∈ rest, op.user ≠ k := fun h => by
        rw [ih.mpr h] at hr; exact Option.noConfusion hr
      simp only [List.mem_cons, forall_eq_or_imp]
      constructor
      · intro h; exact Option.noConfusion h
      · intro h; exact absurd h.2 this
    | none =>
      have hrest := ih.mp hr
      by_cases h : op.user = k
      · simp [h]
      · simpa [h] using hrest

theorem stored_ne_self (u : String) : u ++ "value" ≠ u := by
  intro h
  have := congrArg String.length h
  simp [String.length_append] at this
  revert this
  decide

theorem foldl_loopIter_stdout (us : List String) (w : World) :
    (us.foldl loopIter w).stdout = w.stdout ++ notices us := by
  induction us generalizing w with
  | nil => simp [notices]
  | cons u us ih =>
    rw [List.foldl_cons, ih, loopIter_stdout, notices, String.append_assoc]

theorem foldl_loopIter_lookup (k : String) (us : List String) (w : World) :
    (us.foldl loopIter w).server.users.lookup k
      = if k ∈ us then some k else w.server.users.lookup k := by
  induction us generalizing w with
  | nil => simp
  | cons u us ih =>
    rw [List.foldl_cons, ih, loopIter_users]
    by_cases hk : k ∈ us
    · simp [hk]
    · by_cases hu : k = u
      · subst hu; simp [hk, Finmap.lookup_insert]
      · simp [hk, hu, Finmap.lookup_insert_of_ne _ hu]

theorem lastWrite_of_separate (k : String) (ops : List Admission)
    (hsep : ∀ u, Admission.intake u ∈ ops → Admission.direct u ∉ ops) :
    lastWrite k ops
      = if Admission.intake k ∈ ops then some k
        else if Admission.direct k ∈ ops then some (k ++ "value") else none := by
  induction ops with
  | nil => simp [lastWrite]
  | cons op rest ih =>
    have hrest : ∀ u, Admission.intake u ∈ rest → Admission.direct u ∉ rest :=
      fun u hi hd => hsep u (List.mem_cons_of_mem _ hi) (List.mem_cons_of_mem _ hd)
    have hk := hsep k
    rw [lastWrite, ih hrest]
    rcases op with u | u <;> by_cases hu : u = k <;>
      by_cases h1 : Admission.intake k ∈ rest <;>
      by_cases h2 : Admission.direct k ∈ rest <;>
      simp_all [Admission.user, Admission.stored, @eq_comm _ k u]

theorem users_of_separate (w : World) (k : String) (ops : List Admission)
    (hsep : ∀ u, Admission.intake u ∈ ops → Admission.direct u ∉ ops) :
    (performAll w ops).server.users.lookup k
      = if Admission.intake k ∈ ops then some k
        else if Admission.direct k ∈ ops then some (k ++ "value")
        else w.server.users.lookup k := by
  rw [lookup_performAll, lastWrite_of_separate k ops hsep]
  by_cases h1 : Admission.intake k ∈ ops <;> by_cases h2 : Admission.direct k ∈ ops <;> simp [h1, h2]

/-- C4. Identifiers `us` received by the loop in that order, starting right
after `NewServer`: standard output is exactly the notices of `us` in that order,
and the mapping holds exactly the entries `u ↦ u` for `u` in `us`. For `a`, `b`,
`c`: three notices in that order and the mapping of `a`, `b`, `c` to themselves. -/
theorem loop_sequence (chans : List Chan) (us : List String) :
    (us.foldl loopIter (fresh chans)).stdout = notices us ∧
    (∀ k, (us.foldl loopIter (fresh chans)).server.users.lookup k
        = if k ∈ us then some k else none) ∧
    (["a", "b", "c"].foldl loopIter (fresh chans)).stdout
      = "adding new user a\nadding new user b\nadding new user c\n" ∧
    (["a", "b", "c"].foldl loopIter (fresh chans)).server.users
      = (Finmap.insert "a" "a" (Finmap.insert "b" "b" (Finmap.singleton "c" "c")) : Users) := by
  have hout : ∀ vs : List String, (vs.foldl loopIter (fresh chans)).stdout = notices vs := by
    intro vs
    rw [foldl_loopIter_stdout]
    show "" ++ notices vs = notices vs
    exact String.empty_append _
  have hmap : ∀ (vs : List String) (k : String),
      (vs.foldl loopIter (fresh chans)).server.users.lookup k
        = if k ∈ vs then some k else none := by
    intro vs k
    rw [foldl_loopIter_lookup]
    rfl
  refine ⟨hout us, hmap us, ?_, ?_⟩
  · rw [hout]; decide
  · show (Finmap.insert "c" "c" (Finmap.insert "b" "b" (Finmap.insert "a" "a" ∅)) : Users) = _
    decide

/-- C5, as amended. A key that is present stays present under every further
sequence of loop iterations and `addUser` calls; it keeps its value `v` when
none of them admits that key, and otherwise holds what the last admission of
that key stored. -/
theorem entry_persists (w : World) (ops : List Admission) (k v : String)
    (h : w.server.users.lookup k = some v) :
    k ∈ (performAll w ops).server.users ∧
    ((∀ op ∈ ops, op.user ≠ k) → (performAll w ops).server.users.lookup k = some v) ∧
    (performAll w ops).server.users.lookup k = some ((lastWrite k ops).getD v) := by
  have hl : (performAll w ops).server.users.lookup k = some ((lastWrite k ops).getD v) := by
    rw [lookup_performAll]
    cases lastWrite k ops with
    | some x => rfl
    | none => simpa using h
  refine ⟨Finmap.mem_of_lookup_eq_some hl, ?_, hl⟩
  intro hno
  rw [hl, lastWrite_eq_none.mpr hno]
  rfl

theorem entry_persists_witness :
    (loopIter (fresh []) "a").server.users.lookup "a" = some "a" ∧
    (performAll (loopIter (fresh []) "a") [.direct "b", .intake "c"]).server.users.lookup "a"
      = some "a" :=
  ⟨by decide,
    (entry_persists (loopIter (fresh []) "a") [.direct "b", .intake "c"] "a" "a" (by decide)).2.1
      (by decide)⟩

/-- C5 as stated fails: after a loop iteration received `a` the key `a` maps to
`a`; a later `addUser("a")` leaves it mapped to `avalue`, not to `a`. -/
theorem entry_overwritten :
    (performAll (fresh []) [.intake "a"]).server.users.lookup "a" = some "a" ∧
    (performAll (performAll (fresh []) [.intake "a"]) [.direct "a"]).server.users.lookup "a"
      = some "avalue" ∧
    (performAll (performAll (fresh []) [.intake "a"]) [.direct "a"]).server.users.lookup "a"
      ≠ some "a" := by
  decide

/-- C6, as amended. When no identifier is admitted through both pathways, every
permutation of a sequence of admissions applied right after `NewServer` gives
the same final mapping. -/
theorem permutation_same_mapping (chans : List Chan) (ops ops' : List Admission)
    (hperm : ops.Perm ops')
    (hsep : ∀ u, Admission.intake u ∈ ops → Admission.direct u ∉ ops) :
    (performAll (fresh chans) ops).server.users = (performAll (fresh chans) ops').server.users := by
  have hsep' : ∀ u, Admission.intake u ∈ ops' → Admission.direct u ∉ ops' :=
    fun u hi hd => hsep u (hperm.mem_iff.mpr hi) (hperm.mem_iff.mpr hd)
  apply Finmap.ext_lookup
  intro k
  rw [users_of_separate _ k ops hsep, users_of_separate _ k ops' hsep']
  simp only [hperm.mem_iff]

theorem permutation_same_mapping_witness :
    (performAll (fresh []) [.intake "a", .direct "b", .intake "a"]).server.users
      = (performAll (fresh []) [.direct "b", .intake "a", .intake "a"]).server.users :=
  permutation_same_mapping [] [.intake "a", .direct "b", .intake "a"]
    [.direct "b", .intake "a", .intake "a"] (by decide)
    (by intro u hi hd; simp at hi hd; subst hi; exact absurd hd (by decide))

/-- C6 as stated fails: `[intake a, direct a]` and its permutation
`[direct a, intake a]` end with different mappings (`a ↦ avalue` and `a ↦ a`). -/
theorem permutation_changes_mapping :
    [Admission.intake "a", Admission.direct "a"].Perm [Admission.direct "a", Admission.intake "a"] ∧
    (performAll (fresh []) [.intake "a", .direct "a"]).server.users
      ≠ (performAll (fresh []) [.direct "a", .intake "a"]).server.users := by
  decide

theorem lookup_performAll_snoc (w : World) (ops : List Admission) (op : Admission) :
    (performAll w (ops ++ [op])).server.users.lookup op.user = some op.stored := by
  rw [performAll_append]
  show (perform (performAll w ops) op).server.users.lookup op.user = _
  rw [lookup_perform, if_pos rfl]

/-- The side condition of the amended C6 cannot be dropped: a sequence that
admits some identifier through both pathways has two permutations that end
with different mappings. -/
theorem permutation_sensitive_of_both (w : World) (ops : List Admission) (u : String)
    (hi : Admission.intake u ∈ ops) (hd : Admission.direct u ∈ ops) :
    ∃ ops' ops'', ops.Perm ops' ∧ ops.Perm ops'' ∧
      (performAll w ops').server.users ≠ (performAll w ops'').server.users := by
  refine ⟨ops.erase (.intake u) ++ [.intake u], ops.erase (.direct u) ++ [.direct u],
    ?_, ?_, ?_⟩
  · exact (List.perm_cons_erase hi).trans (List.perm_append_singleton _ _).symm
  · exact (List.perm_cons_erase hd).trans (List.perm_append_singleton _ _).symm
  · intro heq
    have h1 := lookup_performAll_snoc w (ops.erase (.intake u)) (.intake u)
    have h2 := lookup_performAll_snoc w (ops.erase (.direct u)) (.direct u)
    rw [heq] at h1
    have h3 : some (u ++ "value") = some u := h2.symm.trans h1
    exact stored_ne_self u (Option.some.inj h3)

/-- C7. For distinct identifiers `u` and `v`, right after `NewServer`, an intake
admission of `u` and a direct admission of `v`, in either order, give the
mapping with exactly the entries `u ↦ u` and `v ↦ v ++ "value"`. -/
theorem mixed_pathways (chans : List Chan) (u v : String) (h : u ≠ v) :
    (performAll (fresh chans) [.intake u, .direct v]).server.users
      = (Finmap.insert u u (Finmap.singleton v (v ++ "value")) : Users) ∧
    (performAll (fresh chans) [.direct v, .intake u]).server.users
      = (Finmap.insert u u (Finmap.singleton v (v ++ "value")) : Users) ∧
    (∀ k, (Finmap.insert u u (Finmap.singleton v (v ++ "value")) : Users).lookup k
        = if k = u then some u else if k = v then some (v ++ "value") else none) := by
  refine ⟨?_, ?_, ?_⟩
  · show (Finmap.insert v (v ++ "value") (Finmap.insert u u ∅) : Users) = _
    rw [Finmap.insert_insert_of_ne _ h]
    rfl
  · show (Finmap.insert u u (Finmap.insert v (v ++ "value") ∅) : Users) = _
    rfl
  · intro k
    by_cases hu : k = u
    · subst hu; simp [Finmap.lookup_insert]
    · rw [Finmap.lookup_insert_of_ne _ hu, if_neg hu]
      by_cases hv : k = v
      · subst hv; simp [Finmap.lookup_singleton_eq]
      · rw [if_neg hv, Finmap.lookup_eq_none, Finmap.mem_singleton]
        exact hv

theorem mixed_pathways_witness :
    "bob" ≠ "carol" ∧
    (performAll (fresh []) [.intake "bob", .direct "carol"]).server.users
      = (Finmap.insert "bob" "bob" (Finmap.singleton "carol" "carolvalue") : Users) ∧
    (performAll (fresh []) [.direct "carol", .intake "bob"]).server.users
      = (Finmap.insert "bob" "bob" (Finmap.singleton "carol" "carolvalue") : Users) :=
  ⟨by decide, (mixed_pathways [] "bob" "carol" (by decide)).1,
    (mixed_pathways [] "bob" "carol" (by decide)).2.1⟩

/-! ## The helpers `sendMessage` and `readMessage` -/

theorem helper_step0 (w : World) (c : Nat) (ch : Chan) (hc : w.chans[c]? = some ch)
    (hcap : ch.cap = 0) (hbuf : ch.buf = []) (t : System) (h : Step (helperPair w c) t) :
    t = { world := w, gs := [.returned, .readPrintln "hello"] } := by
  obtain ⟨a, h⟩ := h
  cases a with
  | handoff i j =>
    rcases i with _ | _ | i <;> rcases j with _ | _ | j <;>
      simp [fire, helperPair, sendOf, recvOf, hc, hbuf] at h ⊢
    exact h.symm
  | enqueue i =>
    rcases i with _ | _ | i <;> simp [fire, helperPair, sendOf, hc, hbuf, hcap] at h
  | dequeue i =>
    rcases i with _ | _ | i <;> simp [fire, helperPair, recvOf, hc, hbuf] at h
  | callStart i =>
    rcases i with _ | _ | i <;> simp [fire, helperPair] at h
  | run i =>
    rcases i with _ | _ | i <;> simp [fire, helperPair] at h

theorem helper_step1 (w : World) (t : System)
    (h : Step { world := w, gs := [.returned, .readPrintln "hello"] } t) :
    t = { world := Println w "hello", gs := [.returned, .returned] } := by
  obtain ⟨a, h⟩ := h
  cases a with
  | handoff i j =>
    rcases i with _ | _ | i <;> simp [fire, sendOf] at h
  | enqueue i =>
    rcases i with _ | _ | i <;> simp [fire, sendOf] at h
  | dequeue i =>
    rcases i with _ | _ | i <;> simp [fire, recvOf] at h
  | callStart i =>
    rcases i with _ | _ | i <;> simp [fire] at h
  | run i =>
    rcases i with _ | _ | i <;> simp [fire] at h
    exact h.symm

theorem helper_step2 (w : World) :
    Terminal { world := w, gs := [.returned, .returned] } := by
  rintro t ⟨a, h⟩
  cases a with
  | handoff i j =>
    rcases i with _ | _ | i <;> simp [fire, sendOf] at h
  | enqueue i =>
    rcases i with _ | _ | i <;> simp [fire, sendOf] at h
  | dequeue i =>
    rcases i with _ | _ | i <;> simp [fire, recvOf] at h
  | callStart i =>
    rcases i with _ | _ | i <;> simp [fire] at h
  | run i =>
    rcases i with _ | _ | i <;> simp [fire] at h

/-- C8. On an unbuffered channel `c` (capacity zero, nothing buffered) with only
`sendMessage(c)` and `readMessage(c)` running: the state where both helpers have
returned and standard output has grown by exactly `hello` and a newline is
reached, nothing can happen after it, every run has at most two steps, and a
run can stop only there; so every interleaving ends there. -/
theorem helper_round_trip (w : World) (c : Nat) (ch : Chan) (hc : w.chans[c]? = some ch)
    (hcap : ch.cap = 0) (hbuf : ch.buf = []) :
    (Println w "hello").stdout = w.stdout ++ "hello\n" ∧
    (Println w "hello").server = w.server ∧ (Println w "hello").chans = w.chans ∧
    StepsN Step 2 (helperPair w c) { world := Println w "hello", gs := [.returned, .returned] } ∧
    Terminal { world := Println w "hello", gs := [.returned, .returned] } ∧
    (∀ n t, StepsN Step n (helperPair w c) t →
      n ≤ 2 ∧ (Terminal t → t = { world := Println w "hello", gs := [.returned, .returned] })) := by
  have h01 : Step (helperPair w c) { world := w, gs := [.returned, .readPrintln "hello"] } :=
    ⟨.handoff 0 1, by simp [fire, helperPair, sendOf, recvOf, hc, hbuf]⟩
  have h12 : Step { world := w, gs := [.returned, .readPrintln "hello"] }
      { world := Println w "hello", gs := [.returned, .returned] } :=
    ⟨.run 1, by simp [fire]⟩
  refine ⟨?_, rfl, rfl, ⟨_, h01, _, h12, rfl⟩, helper_step2 _, ?_⟩
  · show w.stdout ++ "hello" ++ "\n" = _
    rw [String.append_assoc]; rfl
  · intro n t hn
    match n, hn with
    | 0, hn =>
      refine ⟨by omega, fun hterm => ?_⟩
      have : helperPair w c = t := hn
      subst this
      exact absurd h01 (hterm _)
    | 1, ⟨m, hm, hn⟩ =>
      refine ⟨by omega, fun hterm => ?_⟩
      have hm := helper_step0 w c ch hc hcap hbuf m hm
      have : m = t := hn
      subst this; subst hm
      exact absurd h12 (hterm _)
    | 2, ⟨m, hm, m', hm', hn⟩ =>
      refine ⟨by omega, fun _ => ?_⟩
      have hm := helper_step0 w c ch hc hcap hbuf m hm
      subst hm
      have hm' := helper_step1 w m' hm'
      have : m' = t := hn
      subst this
      exact hm'
    | n + 3, ⟨m, hm, m', hm', m'', hm'', _⟩ =>
      have hm := helper_step0 w c ch hc hcap hbuf m hm
      subst hm
      have hm' := helper_step1 w m' hm'
      subst hm'
      exact absurd hm'' (helper_step2 _ _)

theorem helper_round_trip_witness :
    StepsN Step 2 (helperPair { fresh [] with chans := [makeChan 0, makeChan 0] } 1)
      { world := Println { fresh [] with chans := [makeChan 0, makeChan 0] } "hello",
        gs := [.returned, .returned] } ∧
    (Println { fresh [] with chans := [makeChan 0, makeChan 0] } "hello").stdout = "hello\n" :=
  ⟨(helper_round_trip { fresh [] with chans := [makeChan 0, makeChan 0] } 1 (makeChan 0)
      rfl rfl rfl).2.2.2.1,
    by decide⟩

/-! ## The loop inside the scheduler -/

/-- Two steps of a loop goroutine that has received `u` are one iteration of the
loop body: the process state becomes `loopIter` of the old one and the goroutine
is back at the receive. -/
theorem loop_steps (s : System) (i : Nat) (u : String) (h : s.gs[i]? = some (.loopAssign u)) :
    StepsN Step 2 s { world := loopIter s.world u, gs := s.gs.set i .loopRecv } := by
  have hi : i < s.gs.length := by
    by_contra hlt
    rw [List.getElem?_eq_none (by omega)] at h
    exact Option.noConfusion h
  refine ⟨{ world := loopAssign s.world u, gs := s.gs.set i (.loopPrintf u) },
    ⟨.run i, by simp [fire, h]⟩, _, ⟨.run i, ?_⟩, rfl⟩
  simp [fire, List.getElem?_set_self hi, List.set_set, loopIter]

/-- Scenario S1 run through the scheduler: a client calls `Start` and sends
`alice`; after the rendezvous and one loop iteration the mapping is
`alice ↦ alice`, standard output is the notice, the client has returned and the
loop waits for the next identifier. Once `Start` was called, sends do complete. -/
theorem single_intake_run :
    StepsN Step 4 (boot [] "" [.caller [.Start, .send "alice"]])
      { world := loopIter (fresh []) "alice", gs := [.caller [], .loopRecv] } ∧
    (loopIter (fresh []) "alice").server.users = (Finmap.singleton "alice" "alice" : Users) ∧
    (loopIter (fresh []) "alice").stdout = "adding new user alice\n" := by
  refine ⟨⟨_, ⟨.callStart 0, rfl⟩, _, ⟨.handoff 0 1, rfl⟩, _, ⟨.run 1, rfl⟩, _, ⟨.run 1, rfl⟩, rfl⟩,
    ?_, ?_⟩
  · decide
  · rw [loopIter_stdout]; decide

/-! ## Before `Start` -/

theorem sendOf_some {s : Server} {g : Goroutine} {c : Nat} {v : String} {k : Goroutine}
    (h : sendOf s g = some (c, v, k)) :
    (∃ rest, g = .caller (.send v :: rest) ∧ c = s.userch ∧ k = .caller rest) ∨
    (g = .sendMessage c ∧ v = "hello" ∧ k = .returned) := by
  unfold sendOf at h
  split at h
  · simp at h; obtain ⟨rfl, rfl, rfl⟩ := h; exact Or.inl ⟨_, rfl, rfl, rfl⟩
  · simp at h; obtain ⟨rfl, rfl, rfl⟩ := h; exact Or.inr ⟨rfl, rfl, rfl⟩
  · exact Option.noConfusion h

theorem recvOf_some {s : Server} {g : Goroutine} {c : Nat} {r : String → Goroutine}
    (h : recvOf s g = some (c, r)) :
    (g = .loopRecv ∧ c = s.userch ∧ r = .loopAssign) ∨
    (g = .readMessage c ∧ r = .readPrintln) := by
  unfold recvOf at h
  split at h
  · simp at h; obtain ⟨rfl, rfl⟩ := h; exact Or.inl ⟨rfl, rfl, rfl⟩
  · simp at h; obtain ⟨rfl, rfl⟩ := h; exact Or.inr ⟨rfl, rfl⟩
  · exact Option.noConfusion h

theorem fire_handoff {s t : System} {i j : Nat} (h : fire s (.handoff i j) = some t) :
    ∃ gi gj c v k r ch, s.gs[i]? = some gi ∧ s.gs[j]? = some gj ∧
      sendOf s.world.server gi = some (c, v, k) ∧ recvOf s.world.server gj = some (c, r) ∧
      s.world.chans[c]? = some ch ∧ ch.buf = [] ∧
      t = { s with gs := (s.gs.set i k).set j (r v) } := by
  simp only [fire] at h
  split at h
  · rename_i c v k c' r hs hr
    split at h
    · rename_i ch hch
      split at h
      · rename_i hcond
        obtain ⟨rfl, hb⟩ := hcond
        cases hgi : s.gs[i]? with
        | none => simp [hgi] at hs
        | some gi =>
          cases hgj : s.gs[j]? with
          | none => simp [hgj] at hr
          | some gj =>
            simp [hgi] at hs
            simp [hgj] at hr
            exact ⟨gi, gj, c, v, k, r, ch, rfl, rfl, hs, hr, hch, hb, by simpa using h.symm⟩
      · exact Option.noConfusion h
    · exact Option.noConfusion h
  · exact Option.noConfusion h

theorem fire_enqueue {s t : System} {i : Nat} (h : fire s (.enqueue i) = some t) :
    ∃ gi c v k ch, s.gs[i]? = some gi ∧ sendOf s.world.server gi = some (c, v, k) ∧
      s.world.chans[c]? = some ch ∧ ch.buf.length < ch.cap ∧
      t = { world := { s.world with chans := s.world.chans.set c { ch with buf := ch.buf ++ [v] } },
            gs := s.gs.set i k } := by
  simp only [fire] at h
  split at h
  · rename_i c v k hs
    split at h
    · rename_i ch hch
      split at h
      · rename_i hlt
        cases hgi : s.gs[i]? with
        | none => simp [hgi] at hs
        | some gi =>
          simp [hgi] at hs
          exact ⟨gi, c, v, k, ch, rfl, hs, hch, hlt, by simpa using h.symm⟩
      · exact Option.noConfusion h
    · exact Option.noConfusion h
  · exact Option.noConfusion h

theorem fire_dequeue {s t : System} {j : Nat} (h : fire s (.dequeue j) = some t) :
    ∃ gj c r ch v rest, s.gs[j]? = some gj ∧ recvOf s.world.server gj = some (c, r) ∧
      s.world.chans[c]? = some ch ∧ ch.buf = v :: rest ∧
      t = { world := { s.world with chans := s.world.chans.set c { ch with buf := rest } },
            gs := s.gs.set j (r v) } := by
  simp only [fire] at h
  split at h
  · rename_i c r hr
    split at h
    · rename_i ch hch
      split at h
      · rename_i v rest hb
        cases hgj : s.gs[j]? with
        | none => simp [hgj] at hr
        | some gj =>
          simp [hgj] at hr
          exact ⟨gj, c, r, ch, v, rest, rfl, hr, hch, hb, by simpa using h.symm⟩
      · exact Option.noConfusion h
    · exact Option.noConfusion h
  · exact Option.noConfusion h

theorem fire_run {s t : System} {i : Nat} (h : fire s (.run i) = some t) :
    (∃ u rest, s.gs[i]? = some (.caller (.addUser u :: rest)) ∧
      t = { world := addUser s.world u, gs := s.gs.set i (.caller rest) }) ∨
    (∃ u, s.gs[i]? = some (.loopAssign u) ∧
      t = { world := loopAssign s.world u, gs := s.gs.set i (.loopPrintf u) }) ∨
    (∃ u, s.gs[i]? = some (.loopPrintf u) ∧
      t = { world := loopPrintf s.world u, gs := s.gs.set i .loopRecv }) ∨
    (∃ msg, s.gs[i]? = some (.readPrintln msg) ∧
      t = { world := Println s.world msg, gs := s.gs.set i .returned }) := by
  simp only [fire] at h
  split at h
  · rename_i u rest hg
    exact Or.inl ⟨u, rest, hg, by simpa using h.symm⟩
  · rename_i u hg
    exact Or.inr (Or.inl ⟨u, hg, by simpa using h.symm⟩)
  · rename_i u hg
    exact Or.inr (Or.inr (Or.inl ⟨u, hg, by simpa using h.symm⟩))
  · rename_i msg hg
    exact Or.inr (Or.inr (Or.inr ⟨msg, hg, by simpa using h.symm⟩))
  · exact Option.noConfusion h

theorem quietOn_cont {s : Server} {g : Goroutine} {c c' : Nat} {v : String} {k : Goroutine}
    (h : sendOf s g = some (c', v, k)) : quietOn c k = true := by
  rcases sendOf_some h with ⟨rest, -, -, rfl⟩ | ⟨-, -, rfl⟩ <;> rfl

theorem noDirect_cont {s : Server} {g : Goroutine} {c' : Nat} {v : String} {k : Goroutine}
    (h : sendOf s g = some (c', v, k)) (hg : noDirect g = true) : noDirect k = true := by
  rcases sendOf_some h with ⟨rest, rfl, -, rfl⟩ | ⟨-, -, rfl⟩
  · simpa [noDirect] using hg
  · rfl

theorem recv_of_quiet {s : Server} {g : Goroutine} {c c' : Nat} {r : String → Goroutine}
    (h : recvOf s g = some (c', r)) (hq : quietOn c g = true) :
    g = .readMessage c' ∧ r = .readPrintln ∧ c' ≠ c := by
  rcases recvOf_some h with ⟨rfl, -, -⟩ | ⟨rfl, rfl⟩
  · exact absurd hq (by simp [quietOn])
  · exact ⟨rfl, rfl, by simpa [quietOn] using hq⟩

theorem mem_set_of {α : Type} {l : List α} {i : Nat} {x g : α} {p : α → Prop}
    (hg : g ∈ l.set i x) (hl : ∀ a ∈ l, p a) (hx : p x) : p g := by
  rcases List.mem_or_eq_of_mem_set hg with h | h
  · exact hl g h
  · exact h ▸ hx

theorem getElem?_set_other {α : Type} {l : List α} {i j : Nat} {x a b : α}
    (ha : l[i]? = some a) (hb : l[j]? = some b) (hne : a ≠ b) :
    (l.set j x)[i]? = some a := by
  have hij : j ≠ i := by
    rintro rfl
    rw [ha] at hb
    exact hne (Option.some.inj hb)
  rw [List.getElem?_set_ne hij, ha]

theorem unstarted_step {c : Nat} {s t : System} (hs : Unstarted c s) (h : StepNoStart s t) :
    Unstarted c t ∧
    (∀ (i : Nat) g v k, s.gs[i]? = some g → sendOf s.world.server g = some (c, v, k) →
      t.gs[i]? = some g) ∧
    ((∀ g ∈ s.gs, noDirect g = true) →
      t.world.server.users = s.world.server.users ∧ ∀ g ∈ t.gs, noDirect g = true) := by
  obtain ⟨a, hns, h⟩ := h
  obtain ⟨huc, ⟨ch0, hch0, hcap0, hbuf0⟩, hq, hv⟩ := hs
  cases a with
  | callStart i => exact absurd rfl (hns i)
  | handoff i j =>
    obtain ⟨gi, gj, c', v, k, r, ch, hgi, hgj, hsend, hrecv, -, -, rfl⟩ := fire_handoff h
    obtain ⟨rfl, rfl, hc'⟩ := recv_of_quiet hrecv (hq _ (List.getElem?_mem hgj))
    refine ⟨⟨huc, ⟨ch0, hch0, hcap0, hbuf0⟩, ?_, hv⟩, ?_, ?_⟩
    · intro g hg
      exact mem_set_of (p := fun g => quietOn c g = true) hg
        (fun a ha => mem_set_of (p := fun g => quietOn c g = true) ha hq (quietOn_cont hsend))
        rfl
    · intro i0 g v0 k0 hg hsend0
      have h1 : g ≠ gi := by
        rintro rfl
        rw [hsend] at hsend0
        simp at hsend0
        exact hc' hsend0.1
      have h2 : g ≠ .readMessage c' := by
        rintro rfl
        simp [sendOf] at hsend0
      show ((s.gs.set i k).set j (.readPrintln v))[i0]? = some g
      have hi : (s.gs.set i k)[i0]? = some g := getElem?_set_other hg hgi h1
      have hij : j ≠ i0 := by
        rintro rfl
        rw [hgj] at hg
        exact h2 (Option.some.inj hg).symm
      rw [List.getElem?_set_ne hij, hi]
    · intro hnd
      refine ⟨rfl, fun g hg => ?_⟩
      exact mem_set_of (p := fun g => noDirect g = true) hg
        (fun a ha => mem_set_of (p := fun g => noDirect g = true) ha hnd
          (noDirect_cont hsend (hnd _ (List.getElem?_mem hgi))))
        rfl
  | enqueue i =>
    obtain ⟨gi, c', v, k, ch, hgi, hsend, hch, hlt, rfl⟩ := fire_enqueue h
    have hc' : c' ≠ c := by
      rintro rfl
      rw [hch0] at hch
      obtain rfl := Option.some.inj hch
      omega
    refine ⟨⟨huc, ⟨ch0, ?_, hcap0, hbuf0⟩, ?_, hv⟩, ?_, ?_⟩
    · show (s.world.chans.set c' _)[c]? = some ch0
      rw [List.getElem?_set_ne hc', hch0]
    · intro g hg
      exact mem_set_of (p := fun g => quietOn c g = true) hg hq (quietOn_cont hsend)
    · intro i0 g v0 k0 hg hsend0
      have h1 : g ≠ gi := by
        rintro rfl
        rw [hsend] at hsend0
        simp at hsend0
        exact hc' hsend0.1
      exact getElem?_set_other hg hgi h1
    · intro hnd
      refine ⟨rfl, fun g hg => ?_⟩
      exact mem_set_of (p := fun g => noDirect g = true) hg hnd
        (noDirect_cont hsend (hnd _ (List.getElem?_mem hgi)))
  | dequeue j =>
    obtain ⟨gj, c', r, ch, v, rest, hgj, hrecv, hch, hb, rfl⟩ := fire_dequeue h
    obtain ⟨rfl, rfl, hc'⟩ := recv_of_quiet hrecv (hq _ (List.getElem?_mem hgj))
    refine ⟨⟨huc, ⟨ch0, ?_, hcap0, hbuf0⟩, ?_, hv⟩, ?_, ?_⟩
    · show (s.world.chans.set c' _)[c]? = some ch0
      rw [List.getElem?_set_ne hc', hch0]
    · intro g hg
      exact mem_set_of (p := fun g => quietOn c g = true) hg hq rfl
    · intro i0 g v0 k0 hg hsend0
      have h2 : g ≠ .readMessage c' := by
        rintro rfl
        simp [sendOf] at hsend0
      exact getElem?_set_other hg hgj h2
    · intro hnd
      refine ⟨rfl, fun g hg => ?_⟩
      exact mem_set_of (p := fun g => noDirect g = true) hg hnd rfl
  | run i =>
    rcases fire_run h with ⟨u, rest, hg, rfl⟩ | ⟨u, hg, rfl⟩ | ⟨u, hg, rfl⟩ | ⟨msg, hg, rfl⟩
    · refine ⟨⟨huc, ⟨ch0, hch0, hcap0, hbuf0⟩, ?_, ?_⟩, ?_, ?_⟩
      · intro g hg'
        exact mem_set_of (p := fun g => quietOn c g = true) hg' hq rfl
      · intro k v hk
        rw [show (addUser s.world u).server.users = s.world.server.users.insert u (u ++ "value")
          from rfl] at hk
        by_cases hku : k = u
        · subst hku
          rw [Finmap.lookup_insert] at hk
          exact (Option.some.inj hk).symm
        · rw [Finmap.lookup_insert_of_ne _ hku] at hk
          exact hv k v hk
      · intro i0 g v0 k0 hg0 hsend0
        have h2 : g ≠ .caller (.addUser u :: rest) := by
          rintro rfl
          simp [sendOf] at hsend0
        exact getElem?_set_other hg0 hg h2
      · intro hnd
        have := hnd _ (List.getElem?_mem hg)
        simp [noDirect] at this
    · exact absurd (hq _ (List.getElem?_mem hg)) (by simp [quietOn])
    · exact absurd (hq _ (List.getElem?_mem hg)) (by simp [quietOn])
    · refine ⟨⟨huc, ⟨ch0, hch0, hcap0, hbuf0⟩, ?_, hv⟩, ?_, ?_⟩
      · intro g hg'
        exact mem_set_of (p := fun g => quietOn c g = true) hg' hq rfl
      · intro i0 g v0 k0 hg0 hsend0
        have h2 : g ≠ .readPrintln msg := by
          rintro rfl
          simp [sendOf] at hsend0
        exact getElem?_set_other hg0 hg h2
      · intro hnd
        refine ⟨rfl, fun g hg' => ?_⟩
        exact mem_set_of (p := fun g => noDirect g = true) hg' hnd rfl

theorem unstarted_boot (chans : List Chan) (out : String) (gs : List Goroutine)
    (hq : ∀ g ∈ gs, quietOn chans.length g = true) :
    Unstarted chans.length (boot chans out gs) := by
  refine ⟨rfl, ⟨makeChan 0, ?_, rfl, rfl⟩, hq, ?_⟩
  · show (chans ++ [makeChan 0])[chans.length]? = some (makeChan 0)
    simp
  · intro k v hk
    rw [show (boot chans out gs).world.server.users = ∅ from rfl, Finmap.lookup_empty] at hk
    exact Option.noConfusion hk

theorem unstarted_steps {c : Nat} (n : Nat) {s t : System} (hs : Unstarted c s)
    (h : StepsN StepNoStart n s t) :
    Unstarted c t ∧
    (∀ (i : Nat) g v k, s.gs[i]? = some g → sendOf s.world.server g = some (c, v, k) →
      t.gs[i]? = some g) ∧
    ((∀ g ∈ s.gs, noDirect g = true) →
      t.world.server.users = s.world.server.users ∧ ∀ g ∈ t.gs, noDirect g = true) := by
  induction n generalizing s with
  | zero =>
    have : s = t := h
    subst this
    exact ⟨hs, fun _ _ _ _ hg _ => hg, fun hnd => ⟨rfl, hnd⟩⟩
  | succ n ih =>
    obtain ⟨m, hsm, hmt⟩ := h
    obtain ⟨hm, hkeep, hnd⟩ := unstarted_step hs hsm
    obtain ⟨ht, hkeep', hnd'⟩ := ih hm hmt
    have hserver : m.world.server.userch = s.world.server.userch := by
      rw [hm.userch, hs.userch]
    refine ⟨ht, ?_, ?_⟩
    · intro i g v k hg hsend
      have hgm := hkeep i g v k hg hsend
      have hsend' : sendOf m.world.server g = some (c, v, k) := by
        rcases sendOf_some hsend with ⟨rest, rfl, -, rfl⟩ | ⟨rfl, rfl, rfl⟩
        · simp [sendOf, hm.userch]
        · rfl
      exact hkeep' i g v k hgm hsend'
    · intro hall
      obtain ⟨hu, hall'⟩ := hnd hall
      obtain ⟨hu', hall''⟩ := hnd' hall'
      exact ⟨hu'.trans hu, hall''⟩

/-- C9, as amended. After `NewServer`, with no goroutine running the loop or
receiving on the new intake channel, and as long as `Start` is not called: a
goroutine waiting to send on the intake channel is still waiting at that same
send after any number of further steps; every stored value is its key followed
by `value` (written by `addUser`, never by the loop); and when no goroutine
calls `addUser` the mapping stays empty. -/
theorem send_blocks_before_Start (chans : List Chan) (out : String) (gs : List Goroutine)
    (hq : ∀ g ∈ gs, quietOn chans.length g = true) (n : Nat) (t : System)
    (hreach : StepsN StepNoStart n (boot chans out gs) t) :
    (∀ (i : Nat) g v k, t.gs[i]? = some g →
      sendOf t.world.server g = some (t.world.server.userch, v, k) →
      ∀ m t', StepsN StepNoStart m t t' → t'.gs[i]? = some g) ∧
    (∀ k v, t.world.server.users.lookup k = some v → v = k ++ "value") ∧
    ((∀ g ∈ gs, noDirect g = true) → t.world.server.users = ∅) := by
  obtain ⟨ht, -, hnd⟩ := unstarted_steps n (unstarted_boot chans out gs hq) hreach
  refine ⟨?_, ht.values, fun hall => (hnd hall).1⟩
  intro i g v k hg hsend m t' hm
  rw [ht.userch] at hsend
  exact (unstarted_steps m ht hm).2.1 i g v k hg hsend

theorem send_blocks_before_Start_witness :
    (∀ g ∈ [Goroutine.caller [.send "a", .Start], .readPrintln "x"], quietOn 0 g = true) ∧
    ({ world := Println (boot [] "" []).world "x",
       gs := [.caller [.send "a", .Start], .returned] } : System).gs[0]?
      = some (.caller [.send "a", .Start]) :=
  ⟨by decide,
    (send_blocks_before_Start [] "" [.caller [.send "a", .Start], .readPrintln "x"] (by decide) 0
      (boot [] "" [.caller [.send "a", .Start], .readPrintln "x"]) rfl).1 0
      (.caller [.send "a", .Start]) "a" (.caller [.Start]) rfl rfl 1
      { world := Println (boot [] "" []).world "x",
        gs := [.caller [.send "a", .Start], .returned] }
      ⟨_, ⟨.run 1, fun i hi => Action.noConfusion hi, rfl⟩, rfl⟩⟩

/-- C9 as stated fails: without any call of `Start`, a call `addUser("x")` next
to a blocked sender runs, and the mapping then holds `x ↦ xvalue`: it does not
stay empty. -/
theorem mapping_filled_before_Start :
    StepsN StepNoStart 1 (boot [] "" [.caller [.send "a"], .caller [.addUser "x"]])
      { world := addUser (boot [] "" []).world "x", gs := [.caller [.send "a"], .caller []] } ∧
    (addUser (boot [] "" []).world "x").server.users.lookup "x" = some "xvalue" ∧
    (addUser (boot [] "" []).world "x").server.users ≠ ∅ :=
  ⟨⟨_, ⟨.run 1, fun i hi => Action.noConfusion hi, rfl⟩, rfl⟩, by decide, by decide⟩

end GoChannel
